import Mathlib

/-!
Shallow embedding of the locally authored logic of the
Valmach/machine-learning-scripts repository (the TED-talks keyword-labeling
notebook and its companions), together with proofs about it.

The embedded pieces are:
* the ranking-metric helpers `dcg_at_k` and `scores_at_k` (with the four
  accumulators `precision_at_k`, `recall_at_k`, `f1score_at_k`, `ndcg_at_k`);
* the label-vector builder `indices_to_labels` with its constant `NLABELS`;
* the train/validation split performed with Python negative-index slicing and
  `num_validation_samples = int(VALIDATION_SPLIT * n)`;
* the tensorboardX import cell, which wraps an import in try/except.

Numeric values are modelled as rationals (predictions, ground truths) and the
discounted-cumulative-gain values, which divide by log2, as reals.  Python's
`sorted(z, reverse=True, key=...)` is a stable descending sort by the key;
it is modelled by `List.insertionSort` with the "key of the left argument is
at least the key of the right argument" relation, which is stable in exactly
the same way (equal keys keep their original relative order).
-/

/-- The constant 0.00000001 added to the ideal DCG in `scores_at_k`. -/
def eps : ℚ := 1 / 100000000

/-- The relation "descending by prediction score": used to model
`sorted(z, reverse=True, key=lambda tup: tup[0])`. -/
def predGE (x y : ℚ × ℚ) : Prop := y.1 ≤ x.1

/-- The relation "descending by ground-truth value": used to model
`sorted(z, reverse=True, key=lambda tup: tup[1])`. -/
def trueGE (x y : ℚ × ℚ) : Prop := y.2 ≤ x.2

instance decPredGE : DecidableRel predGE :=
  fun x y => inferInstanceAs (Decidable (y.1 ≤ x.1))

instance decTrueGE : DecidableRel trueGE :=
  fun x y => inferInstanceAs (Decidable (y.2 ≤ x.2))

instance totalPredGE : IsTotal (ℚ × ℚ) predGE := ⟨fun a b => le_total b.1 a.1⟩

instance transPredGE : IsTrans (ℚ × ℚ) predGE :=
  ⟨fun _ _ _ h1 h2 => le_trans h2 h1⟩

instance totalTrueGE : IsTotal (ℚ × ℚ) trueGE := ⟨fun a b => le_total b.2 a.2⟩

instance transTrueGE : IsTrans (ℚ × ℚ) trueGE :=
  ⟨fun _ _ _ h1 h2 => le_trans h2 h1⟩

/-- z = list(zip(predvals[j], truevals[j])) for sample j. -/
def sampleZ (truevals predvals : List (List ℚ)) (j : ℕ) : List (ℚ × ℚ) :=
  (predvals.getD j []).zip (truevals.getD j [])

/-- sorted_z = sorted(z, reverse=True, key=lambda tup: tup[0]). -/
def sortedByPred (z : List (ℚ × ℚ)) : List (ℚ × ℚ) :=
  z.insertionSort predGE

/-- opt_z = sorted(z, reverse=True, key=lambda tup: tup[1]). -/
def sortedByTrue (z : List (ℚ × ℚ)) : List (ℚ × ℚ) :=
  z.insertionSort trueGE

/-- dcg_at_k from the notebook:
res = 0; for i in range(k): res += vals[i][1] / np.log2(i + 2); return res.
An index beyond the end of the list (which would raise IndexError in Python)
is read as the pair (0, 0); the theorems below only ever use k at most the
length of vals. -/
noncomputable def dcg_at_k (vals : List (ℚ × ℚ)) (k : ℕ) : ℝ :=
  ∑ i ∈ Finset.range k, ((vals.getD i (0, 0)).2 : ℝ) / Real.logb 2 ((i : ℝ) + 2)

/-- DCG as a function of the list of gain values alone (helper). -/
noncomputable def dcgT (t : List ℚ) (k : ℕ) : ℝ :=
  ∑ i ∈ Finset.range k, ((t.getD i 0 : ℚ) : ℝ) / Real.logb 2 ((i : ℝ) + 2)

/-- truesum = sum over i in range(k) of sorted_z[i][1]. -/
def truesum (z : List (ℚ × ℚ)) (k : ℕ) : ℚ :=
  ∑ i ∈ Finset.range k, ((sortedByPred z).getD i (0, 0)).2

/-- pr = truesum / k for one sample. -/
def sample_pr (z : List (ℚ × ℚ)) (k : ℕ) : ℚ := truesum z k / k

/-- rc = truesum / np.sum(truevals[0]) for one sample.  Note that the source
divides by the positive-label count of sample 0, not of the current sample. -/
def sample_rc (truevals : List (List ℚ)) (z : List (ℚ × ℚ)) (k : ℕ) : ℚ :=
  truesum z k / (truevals.getD 0 []).sum

/-- The F1 contribution of one sample: 2*((pr*rc)/(pr+rc)) when truesum > 0,
otherwise nothing is added to the accumulator. -/
def sample_f1 (truevals : List (List ℚ)) (z : List (ℚ × ℚ)) (k : ℕ) : ℚ :=
  if 0 < truesum z k then
    2 * ((sample_pr z k * sample_rc truevals z k) /
      (sample_pr z k + sample_rc truevals z k))
  else 0

/-- cg = dcg_at_k(sorted_z, k) / (dcg_at_k(opt_z, k) + 0.00000001). -/
noncomputable def sample_ndcg (z : List (ℚ × ℚ)) (k : ℕ) : ℝ :=
  dcg_at_k (sortedByPred z) k / (dcg_at_k (sortedByTrue z) k + (eps : ℝ))

/-- The precision@k accumulator of scores_at_k, divided by len(truevals). -/
def precision_at_k (truevals predvals : List (List ℚ)) (k : ℕ) : ℚ :=
  (∑ j ∈ Finset.range truevals.length, sample_pr (sampleZ truevals predvals j) k) /
    truevals.length

/-- The recall@k accumulator of scores_at_k, divided by len(truevals). -/
def recall_at_k (truevals predvals : List (List ℚ)) (k : ℕ) : ℚ :=
  (∑ j ∈ Finset.range truevals.length,
      sample_rc truevals (sampleZ truevals predvals j) k) /
    truevals.length

/-- The f1score@k accumulator of scores_at_k, divided by len(truevals). -/
def f1score_at_k (truevals predvals : List (List ℚ)) (k : ℕ) : ℚ :=
  (∑ j ∈ Finset.range truevals.length,
      sample_f1 truevals (sampleZ truevals predvals j) k) /
    truevals.length

/-- The ndcg@k accumulator of scores_at_k, divided by len(truevals). -/
noncomputable def ndcg_at_k (truevals predvals : List (List ℚ)) (k : ℕ) : ℝ :=
  (∑ j ∈ Finset.range truevals.length, sample_ndcg (sampleZ truevals predvals j) k) /
    truevals.length

/-- scores_at_k computes and reports the four averaged metrics
(precision@k, recall@k, F1@k, NDCG@k). -/
noncomputable def scores_at_k (truevals predvals : List (List ℚ)) (k : ℕ) :
    ℚ × ℚ × ℚ × ℝ :=
  (precision_at_k truevals predvals k, recall_at_k truevals predvals k,
    f1score_at_k truevals predvals k, ndcg_at_k truevals predvals k)

/-- The denominators of the rational-valued divisions performed by
scores_at_k: per sample, k (for pr), np.sum(truevals[0]) (for rc) and, when
the guard truesum > 0 holds, pr + rc (for the F1 term); and finally
len(truevals) for the four averages. -/
def scores_denominators (truevals predvals : List (List ℚ)) (k : ℕ) : List ℚ :=
  ((List.range truevals.length).map (fun j =>
      [(k : ℚ), (truevals.getD 0 []).sum] ++
        (if 0 < truesum (sampleZ truevals predvals j) k then
          [sample_pr (sampleZ truevals predvals j) k +
            sample_rc truevals (sampleZ truevals predvals j) k]
        else []))).flatten ++ [(truevals.length : ℚ)]

/-- The denominators of the per-sample NDCG divisions performed by
scores_at_k: the ideal DCG plus the constant 0.00000001. -/
noncomputable def ndcg_denominators (truevals predvals : List (List ℚ)) (k : ℕ) :
    List ℝ :=
  (List.range truevals.length).map (fun j =>
    dcg_at_k (sortedByTrue (sampleZ truevals predvals j)) k + (eps : ℝ))

/-- NLABELS = 100: the number of most common tags kept as labels. -/
def NLABELS : ℕ := 100

/-- indices_to_labels from the notebook:
labels = np.zeros(NLABELS); for i in x: if i < NLABELS: labels[i] = 1. -/
def indices_to_labels (x : List ℕ) : List ℚ :=
  x.foldl (fun labels i => if i < NLABELS then labels.set i 1 else labels)
    (List.replicate NLABELS 0)

/-- VALIDATION_SPLIT = 0.2. -/
def VALIDATION_SPLIT : ℚ := 1 / 5

/-- num_validation_samples = int(VALIDATION_SPLIT * data.shape[0]); int()
truncates toward zero, which on this nonnegative value is the floor. -/
def num_validation_samples (n : ℕ) : ℕ :=
  (Int.floor (VALIDATION_SPLIT * (n : ℚ))).toNat

/-- Python slicing a[:j] for an integer j, with negative-index and clamping
semantics: a nonnegative j keeps the first j elements, a negative j counts
from the end (len(a) + j), and out-of-range values clamp. -/
def pySliceTo {α : Type} (l : List α) (j : ℤ) : List α :=
  if 0 ≤ j then l.take j.toNat else l.take ((l.length : ℤ) + j).toNat

/-- Python slicing a[j:] for an integer j, with negative-index and clamping
semantics. -/
def pySliceFrom {α : Type} (l : List α) (j : ℤ) : List α :=
  if 0 ≤ j then l.drop j.toNat else l.drop ((l.length : ℤ) + j).toNat

/-- x_train = data[:-num_validation_samples]. -/
def x_train {α : Type} (data : List α) : List α :=
  pySliceTo data (-(num_validation_samples data.length : ℤ))

/-- x_val = data[-num_validation_samples:]. -/
def x_val {α : Type} (data : List α) : List α :=
  pySliceFrom data (-(num_validation_samples data.length : ℤ))

/-- A raised Python exception, as far as the tensorboardX cell needs one. -/
inductive PyErr : Type
  | importError : PyErr
deriving DecidableEq

/-- Model of the tensorboardX setup cell: try: import tensorboardX; ...;
log = SummaryWriter(logdir); except ImportError: log = None.  The input is
the outcome of the import (a writer, or a raised ImportError); the output is
the outcome of the whole cell, whose value is the binding of log. -/
def tensorboard_log_cell (α : Type) (imp : Except PyErr α) :
    Except PyErr (Option α) :=
  match imp with
  | .ok w => .ok (some w)
  | .error _ => .ok none

/-! ### Basic helper lemmas -/

theorem getD_of_lt {α : Type} (l : List α) (d : α) {i : ℕ} (h : i < l.length) :
    l.getD i d = l[i] := by
  simp [List.getD_eq_getElem?_getD, List.getElem?_eq_getElem h]

theorem getD_of_ge {α : Type} (l : List α) (d : α) {i : ℕ} (h : l.length ≤ i) :
    l.getD i d = d := by
  simp [List.getD_eq_getElem?_getD, List.getElem?_eq_none h]

theorem getD_map_snd (vals : List (ℚ × ℚ)) (i : ℕ) :
    (vals.map Prod.snd).getD i 0 = (vals.getD i (0, 0)).2 := by
  by_cases h : i < vals.length
  · rw [getD_of_lt _ _ (by simpa using h), getD_of_lt _ _ h, List.getElem_map]
  · push_neg at h
    rw [getD_of_ge _ _ (by simpa using h), getD_of_ge _ _ h]

theorem dcg_eq_dcgT (vals : List (ℚ × ℚ)) (k : ℕ) :
    dcg_at_k vals k = dcgT (vals.map Prod.snd) k := by
  unfold dcg_at_k dcgT
  refine Finset.sum_congr rfl fun i _ => ?_
  rw [getD_map_snd]

theorem truesum_eq_sum_getD (z : List (ℚ × ℚ)) (k : ℕ) :
    truesum z k = ∑ i ∈ Finset.range k, ((sortedByPred z).map Prod.snd).getD i 0 := by
  unfold truesum
  exact Finset.sum_congr rfl fun i _ => (getD_map_snd _ i).symm

theorem sortedByPred_perm (z : List (ℚ × ℚ)) : (sortedByPred z).Perm z :=
  List.perm_insertionSort predGE z

theorem sortedByTrue_perm (z : List (ℚ × ℚ)) : (sortedByTrue z).Perm z :=
  List.perm_insertionSort trueGE z

theorem sortedByTrue_snd_sorted (z : List (ℚ × ℚ)) :
    ((sortedByTrue z).map Prod.snd).Sorted (fun a b : ℚ => b ≤ a) :=
  (List.sorted_insertionSort trueGE z).map Prod.snd (fun _ _ h => h)

theorem sortedByPred_snd_sorted (z : List (ℚ × ℚ))
    (Hbin : ∀ p ∈ z, p.2 = 0 ∨ p.2 = 1)
    (Hsep : ∀ p ∈ z, ∀ q ∈ z, p.2 = 1 → q.2 = 0 → q.1 < p.1) :
    ((sortedByPred z).map Prod.snd).Sorted (fun a b : ℚ => b ≤ a) := by
  have hs : (sortedByPred z).Sorted predGE := List.sorted_insertionSort predGE z
  have h2 : (sortedByPred z).Sorted trueGE := by
    refine hs.imp_of_mem ?_
    intro a b ha hb hab
    have ha' : a ∈ z := (sortedByPred_perm z).subset ha
    have hb' : b ∈ z := (sortedByPred_perm z).subset hb
    rcases Hbin a ha' with h0 | h1
    · rcases Hbin b hb' with g0 | g1
      · show b.2 ≤ a.2; rw [h0, g0]
      · exact absurd hab (not_le.mpr (by simpa using Hsep b hb' a ha' g1 h0))
    · show b.2 ≤ a.2
      rcases Hbin b hb' with g0 | g1
      · rw [h1, g0]; norm_num
      · rw [h1, g1]
  exact h2.map Prod.snd (fun _ _ h => h)

theorem sortedByPred_snd_eq (z : List (ℚ × ℚ))
    (Hbin : ∀ p ∈ z, p.2 = 0 ∨ p.2 = 1)
    (Hsep : ∀ p ∈ z, ∀ q ∈ z, p.2 = 1 → q.2 = 0 → q.1 < p.1) :
    (sortedByPred z).map Prod.snd = (sortedByTrue z).map Prod.snd := by
  refine @List.eq_of_perm_of_sorted ℚ (fun a b : ℚ => b ≤ a)
    ⟨fun a b h1 h2 => le_antisymm h2 h1⟩ _ _ ?_
    (sortedByPred_snd_sorted z Hbin Hsep) (sortedByTrue_snd_sorted z)
  exact ((sortedByPred_perm z).map _).trans ((sortedByTrue_perm z).map _).symm

theorem desc_binary_eq (l : List ℚ) (Hb : ∀ x ∈ l, x = 0 ∨ x = 1)
    (Hs : l.Sorted (fun a b : ℚ => b ≤ a)) :
    l = List.replicate (l.count 1) 1 ++ List.replicate (l.length - l.count 1) 0 := by
  induction l with
  | nil => simp
  | cons x xs ih =>
    rcases Hb x (by simp) with h0 | h1
    · subst h0
      have hall : ∀ y ∈ xs, y = 0 := by
        intro y hy
        rcases Hb y (by simp [hy]) with g0 | g1
        · exact g0
        · have : y ≤ 0 := List.rel_of_sorted_cons Hs y hy
          rw [g1] at this; norm_num at this
      have hxs : xs = List.replicate xs.length 0 := List.eq_replicate_of_mem hall
      have hcount : (0 :: xs).count 1 = 0 := by
        rw [List.count_eq_zero]
        intro hmem
        rcases List.mem_cons.mp hmem with h | h
        · norm_num at h
        · have := hall 1 h; norm_num at this
      rw [hcount]
      simp only [List.replicate_zero, List.nil_append, List.length_cons, Nat.sub_zero]
      rw [List.replicate_succ]
      exact congrArg (0 :: ·) hxs
    · subst h1
      have hxs := ih (fun y hy => Hb y (by simp [hy])) Hs.of_cons
      have hcount : (1 :: xs).count 1 = xs.count 1 + 1 := by
        simp [List.count_cons]
      rw [hcount, List.replicate_succ, List.length_cons, Nat.succ_sub_succ,
        List.cons_append]
      exact congrArg (1 :: ·) hxs

theorem binary_sum_eq_count (l : List ℚ) (Hb : ∀ x ∈ l, x = 0 ∨ x = 1) :
    l.sum = (l.count 1 : ℚ) := by
  induction l with
  | nil => simp
  | cons x xs ih =>
    have ih' := ih (fun y hy => Hb y (by simp [hy]))
    rcases Hb x (by simp) with h | h <;> subst h
    · simp [List.count_cons, ih']
    · simp [List.sum_cons, List.count_cons, ih']
      push_cast
      ring

theorem sortedByPred_snd_replicate (z : List (ℚ × ℚ))
    (Hbin : ∀ p ∈ z, p.2 = 0 ∨ p.2 = 1)
    (Hsep : ∀ p ∈ z, ∀ q ∈ z, p.2 = 1 → q.2 = 0 → q.1 < p.1) :
    (sortedByPred z).map Prod.snd =
      List.replicate ((z.map Prod.snd).count 1) 1 ++
        List.replicate (z.length - (z.map Prod.snd).count 1) 0 := by
  have hperm : ((sortedByPred z).map Prod.snd).Perm (z.map Prod.snd) :=
    (sortedByPred_perm z).map _
  have hbin' : ∀ x ∈ (sortedByPred z).map Prod.snd, x = 0 ∨ x = 1 := by
    intro x hx
    rcases List.mem_map.mp hx with ⟨p, hp, rfl⟩
    exact Hbin p ((sortedByPred_perm z).subset hp)
  have h := desc_binary_eq _ hbin' (sortedByPred_snd_sorted z Hbin Hsep)
  rwa [hperm.count_eq, hperm.length_eq, List.length_map] at h

theorem sortedByTrue_snd_replicate (z : List (ℚ × ℚ))
    (Hbin : ∀ p ∈ z, p.2 = 0 ∨ p.2 = 1) :
    (sortedByTrue z).map Prod.snd =
      List.replicate ((z.map Prod.snd).count 1) 1 ++
        List.replicate (z.length - (z.map Prod.snd).count 1) 0 := by
  have hperm : ((sortedByTrue z).map Prod.snd).Perm (z.map Prod.snd) :=
    (sortedByTrue_perm z).map _
  have hbin' : ∀ x ∈ (sortedByTrue z).map Prod.snd, x = 0 ∨ x = 1 := by
    intro x hx
    rcases List.mem_map.mp hx with ⟨p, hp, rfl⟩
    exact Hbin p ((sortedByTrue_perm z).subset hp)
  have h := desc_binary_eq _ hbin' (sortedByTrue_snd_sorted z)
  rwa [hperm.count_eq, hperm.length_eq, List.length_map] at h

theorem getD_replicate_append_lt (m d i : ℕ) (h : i < m) :
    (List.replicate m (1 : ℚ) ++ List.replicate d (0 : ℚ)).getD i 0 = 1 := by
  rw [getD_of_lt _ _ (by simp; omega)]
  rw [List.getElem_append_left (by simpa using h)]
  simp

theorem getD_replicate_append_nonneg (m d i : ℕ) :
    0 ≤ (List.replicate m (1 : ℚ) ++ List.replicate d (0 : ℚ)).getD i 0 := by
  by_cases h : i < (List.replicate m (1 : ℚ) ++ List.replicate d (0 : ℚ)).length
  · rw [getD_of_lt _ _ h]
    rcases List.mem_append.mp (List.getElem_mem h) with h1 | h1 <;>
      rw [List.eq_of_mem_replicate h1] <;> norm_num
  · push_neg at h
    rw [getD_of_ge _ _ h]

theorem truesum_of_count (z : List (ℚ × ℚ)) (k : ℕ)
    (Hbin : ∀ p ∈ z, p.2 = 0 ∨ p.2 = 1)
    (Hsep : ∀ p ∈ z, ∀ q ∈ z, p.2 = 1 → q.2 = 0 → q.1 < p.1)
    (Hcount : (z.map Prod.snd).count 1 = k) :
    truesum z k = k := by
  rw [truesum_eq_sum_getD, sortedByPred_snd_replicate z Hbin Hsep, Hcount]
  have h : ∀ i ∈ Finset.range k,
      (List.replicate k (1 : ℚ) ++ List.replicate (z.length - k) 0).getD i 0 = 1 :=
    fun i hi => getD_replicate_append_lt _ _ _ (Finset.mem_range.mp hi)
  rw [Finset.sum_congr rfl h, Finset.sum_const, Finset.card_range]
  simp

theorem logb_two_pos (i : ℕ) : 0 < Real.logb 2 ((i : ℝ) + 2) := by
  refine Real.logb_pos (by norm_num) ?_
  have h : (0 : ℝ) ≤ (i : ℝ) := Nat.cast_nonneg i
  linarith

theorem dcgT_replicate_ge_one (m d k : ℕ) (hm : 0 < m) (hk : 0 < k) :
    1 ≤ dcgT (List.replicate m (1 : ℚ) ++ List.replicate d (0 : ℚ)) k := by
  unfold dcgT
  have hterm : (((List.replicate m (1 : ℚ) ++
      List.replicate d (0 : ℚ)).getD 0 0 : ℚ) : ℝ) /
      Real.logb 2 (((0 : ℕ) : ℝ) + 2) = 1 := by
    rw [getD_replicate_append_lt m d 0 hm]
    have h2 : Real.logb 2 (((0 : ℕ) : ℝ) + 2) = 1 := by
      norm_num
    rw [h2]
    norm_num
  refine le_trans (le_of_eq hterm.symm)
    (Finset.single_le_sum
      (f := fun i : ℕ => (((List.replicate m (1 : ℚ) ++
        List.replicate d (0 : ℚ)).getD i 0 : ℚ) : ℝ) /
        Real.logb 2 ((i : ℝ) + 2))
      (fun i _ => ?_) (Finset.mem_range.mpr hk))
  exact div_nonneg (by exact_mod_cast getD_replicate_append_nonneg m d i)
    (logb_two_pos i).le

theorem sample_ndcg_eq (z : List (ℚ × ℚ)) (k : ℕ)
    (Hbin : ∀ p ∈ z, p.2 = 0 ∨ p.2 = 1)
    (Hsep : ∀ p ∈ z, ∀ q ∈ z, p.2 = 1 → q.2 = 0 → q.1 < p.1) :
    sample_ndcg z k = dcgT ((sortedByTrue z).map Prod.snd) k /
      (dcgT ((sortedByTrue z).map Prod.snd) k + (eps : ℝ)) := by
  unfold sample_ndcg
  rw [dcg_eq_dcgT, dcg_eq_dcgT, sortedByPred_snd_eq z Hbin Hsep]

theorem eps_real_pos : 0 < (eps : ℝ) := by
  have h : (0 : ℚ) < eps := by norm_num [eps]
  exact_mod_cast h

theorem sample_ndcg_bounds (z : List (ℚ × ℚ)) (k : ℕ)
    (Hbin : ∀ p ∈ z, p.2 = 0 ∨ p.2 = 1)
    (Hsep : ∀ p ∈ z, ∀ q ∈ z, p.2 = 1 → q.2 = 0 → q.1 < p.1)
    (Hpos : 0 < (z.map Prod.snd).count 1) (hk : 0 < k) :
    1 - (eps : ℝ) < sample_ndcg z k ∧ sample_ndcg z k < 1 := by
  have hrepl := sortedByTrue_snd_replicate z Hbin
  have hDge : 1 ≤ dcgT ((sortedByTrue z).map Prod.snd) k := by
    rw [hrepl]; exact dcgT_replicate_ge_one _ _ _ Hpos hk
  have heps := eps_real_pos
  rw [sample_ndcg_eq z k Hbin Hsep]
  set D := dcgT ((sortedByTrue z).map Prod.snd) k with hD
  constructor
  · rw [lt_div_iff (by linarith)]
    nlinarith [mul_nonneg heps.le (sub_nonneg.mpr hDge), mul_pos heps heps]
  · rw [div_lt_one (by linarith)]
    linarith

/-! ### Per-sample bridges -/

theorem sampleZ_map_snd (tv pv : List (List ℚ)) (j : ℕ)
    (Hlen : (pv.getD j []).length = (tv.getD j []).length) :
    (sampleZ tv pv j).map Prod.snd = tv.getD j [] :=
  List.map_snd_zip _ _ (le_of_eq Hlen.symm)

theorem sampleZ_binary (tv pv : List (List ℚ)) (j : ℕ)
    (Hlen : (pv.getD j []).length = (tv.getD j []).length)
    (Hbin : ∀ x ∈ tv.getD j [], x = 0 ∨ x = 1) :
    ∀ p ∈ sampleZ tv pv j, p.2 = 0 ∨ p.2 = 1 := by
  intro p hp
  have hm : p.2 ∈ (sampleZ tv pv j).map Prod.snd := List.mem_map_of_mem _ hp
  rw [sampleZ_map_snd tv pv j Hlen] at hm
  exact Hbin _ hm

theorem sampleZ_count (tv pv : List (List ℚ)) (j : ℕ)
    (Hlen : (pv.getD j []).length = (tv.getD j []).length) :
    ((sampleZ tv pv j).map Prod.snd).count 1 = (tv.getD j []).count 1 := by
  rw [sampleZ_map_snd tv pv j Hlen]

/-! ### Main lemmas behind the claims about perfect rankings -/

/-- Claim C2: for every non-empty list of samples with binary ground-truth
vectors, if each sample's prediction ranks all of its true labels above all of
its false labels (a perfect ranking) and k equals the number of true positives
of each sample (with k at least 1, so that the per-sample division truesum/k is
the one the source performs), then the precision at k and recall at k computed
and reported by scores_at_k both equal 1. -/
theorem scores_perfect_precision_recall (tv pv : List (List ℚ)) (k : ℕ)
    (Hne : tv ≠ []) (Hk : 0 < k)
    (H : ∀ j, j < tv.length →
      (pv.getD j []).length = (tv.getD j []).length ∧
      (∀ x ∈ tv.getD j [], x = 0 ∨ x = 1) ∧
      (tv.getD j []).count 1 = k ∧
      (∀ p ∈ sampleZ tv pv j, ∀ q ∈ sampleZ tv pv j,
        p.2 = 1 → q.2 = 0 → q.1 < p.1)) :
    precision_at_k tv pv k = 1 ∧ recall_at_k tv pv k = 1 := by
  have hn : (0 : ℚ) < (tv.length : ℚ) := by
    exact_mod_cast List.length_pos.mpr Hne
  have hkQ : ((k : ℚ)) ≠ 0 := by
    exact_mod_cast Hk.ne'
  have hts : ∀ j, j < tv.length → truesum (sampleZ tv pv j) k = k := by
    intro j hj
    obtain ⟨Hlen, Hbin, Hcount, Hsep⟩ := H j hj
    exact truesum_of_count _ _ (sampleZ_binary tv pv j Hlen Hbin) Hsep
      (by rw [sampleZ_count tv pv j Hlen]; exact Hcount)
  have hsum0 : (tv.getD 0 []).sum = (k : ℚ) := by
    obtain ⟨Hlen, Hbin, Hcount, Hsep⟩ := H 0 (List.length_pos.mpr Hne)
    rw [binary_sum_eq_count _ Hbin, Hcount]
  constructor
  · unfold precision_at_k
    have hall : ∀ j ∈ Finset.range tv.length,
        sample_pr (sampleZ tv pv j) k = 1 := by
      intro j hj
      unfold sample_pr
      rw [hts j (Finset.mem_range.mp hj)]
      exact div_self hkQ
    rw [Finset.sum_congr rfl hall, Finset.sum_const, Finset.card_range]
    simp only [nsmul_eq_mul, mul_one]
    exact div_self hn.ne'
  · unfold recall_at_k
    have hall : ∀ j ∈ Finset.range tv.length,
        sample_rc tv (sampleZ tv pv j) k = 1 := by
      intro j hj
      unfold sample_rc
      rw [hts j (Finset.mem_range.mp hj), hsum0]
      exact div_self hkQ
    rw [Finset.sum_congr rfl hall, Finset.sum_const, Finset.card_range]
    simp only [nsmul_eq_mul, mul_one]
    exact div_self hn.ne'

/-- Claim C1 (amended): for every non-empty list of samples whose binary
ground-truth vectors each contain at least one positive label, and every k
with 1 at most k at most the number of labels, if each sample's prediction
scores are monotonic with its ground truth (every positive label receives a
strictly higher score than every negative label), then the NDCG at k computed
and reported by scores_at_k lies strictly between 1 - 0.00000001 and 1.  It
does not equal 1 exactly (see the counterexample), because the source divides
the achieved DCG by the ideal DCG plus the constant 0.00000001. -/
theorem ndcg_perfect_bounds (tv pv : List (List ℚ)) (k : ℕ)
    (Hne : tv ≠ []) (Hk : 0 < k)
    (H : ∀ j, j < tv.length →
      (pv.getD j []).length = (tv.getD j []).length ∧
      (∀ x ∈ tv.getD j [], x = 0 ∨ x = 1) ∧
      (1 : ℚ) ∈ tv.getD j [] ∧
      k ≤ (tv.getD j []).length ∧
      (∀ p ∈ sampleZ tv pv j, ∀ q ∈ sampleZ tv pv j,
        p.2 = 1 → q.2 = 0 → q.1 < p.1)) :
    1 - (eps : ℝ) < ndcg_at_k tv pv k ∧ ndcg_at_k tv pv k < 1 := by
  have hn : 0 < tv.length := List.length_pos.mpr Hne
  have hbnds : ∀ j ∈ Finset.range tv.length,
      1 - (eps : ℝ) < sample_ndcg (sampleZ tv pv j) k ∧
        sample_ndcg (sampleZ tv pv j) k < 1 := by
    intro j hj
    obtain ⟨Hlen, Hbin, Hpos, Hkl, Hsep⟩ := H j (Finset.mem_range.mp hj)
    refine sample_ndcg_bounds _ _ (sampleZ_binary tv pv j Hlen Hbin) Hsep ?_ Hk
    rw [sampleZ_count tv pv j Hlen]
    exact List.count_pos_iff.mpr Hpos
  have hnR : (0 : ℝ) < (tv.length : ℝ) := by exact_mod_cast hn
  have hnonempty : (Finset.range tv.length).Nonempty :=
    Finset.nonempty_range_iff.mpr hn.ne'
  unfold ndcg_at_k
  constructor
  · rw [lt_div_iff hnR]
    calc (1 - (eps : ℝ)) * (tv.length : ℝ)
        = ∑ _j ∈ Finset.range tv.length, (1 - (eps : ℝ)) := by
          rw [Finset.sum_const, Finset.card_range, nsmul_eq_mul]; ring
      _ < ∑ j ∈ Finset.range tv.length, sample_ndcg (sampleZ tv pv j) k :=
          Finset.sum_lt_sum_of_nonempty hnonempty (fun j hj => (hbnds j hj).1)
  · rw [div_lt_one hnR]
    calc ∑ j ∈ Finset.range tv.length, sample_ndcg (sampleZ tv pv j) k
        < ∑ _j ∈ Finset.range tv.length, (1 : ℝ) :=
          Finset.sum_lt_sum_of_nonempty hnonempty (fun j hj => (hbnds j hj).2)
      _ = (tv.length : ℝ) := by
          rw [Finset.sum_const, Finset.card_range, nsmul_eq_mul]; ring

/-- Claim C1, counterexample to the claim as stated: for the single sample
with ground truth [1] and prediction [1] (a perfectly ranked prediction) and
k = 1, the NDCG at 1 computed by scores_at_k is 1 / (1 + 0.00000001), which
is not equal to 1. -/
theorem ndcg_perfect_ne_one : ndcg_at_k [[1]] [[1]] 1 ≠ 1 := by
  have hsp : sortedByPred [((1 : ℚ), (1 : ℚ))] = [((1 : ℚ), (1 : ℚ))] := rfl
  have hst : sortedByTrue [((1 : ℚ), (1 : ℚ))] = [((1 : ℚ), (1 : ℚ))] := rfl
  have hdcg : dcg_at_k [((1 : ℚ), (1 : ℚ))] 1 = 1 := by
    unfold dcg_at_k
    rw [Finset.sum_range_one]
    norm_num
  have heps := eps_real_pos
  have hval : ndcg_at_k [[1]] [[1]] 1 = 1 / (1 + (eps : ℝ)) := by
    show (∑ j ∈ Finset.range 1, sample_ndcg (sampleZ [[1]] [[1]] j) 1) /
      ((1 : ℕ) : ℝ) = _
    rw [Finset.sum_range_one]
    show sample_ndcg [((1 : ℚ), (1 : ℚ))] 1 / ((1 : ℕ) : ℝ) = _
    unfold sample_ndcg
    rw [hsp, hst, hdcg]
    norm_num
  rw [hval]
  have h1 : 1 / (1 + (eps : ℝ)) < 1 := by
    rw [div_lt_one (by linarith)]
    linarith
  exact ne_of_lt h1

/-- Witness for claim C1's amended theorem at a concrete input. -/
theorem ndcg_perfect_bounds_witness :
    1 - (eps : ℝ) < ndcg_at_k [[1]] [[1]] 1 ∧ ndcg_at_k [[1]] [[1]] 1 < 1 :=
  ndcg_perfect_bounds [[1]] [[1]] 1 (by decide) (by decide) (by decide)

/-- Witness for claim C2's theorem at a concrete input. -/
theorem scores_perfect_precision_recall_witness :
    precision_at_k [[1, 0]] [[1, 0]] 1 = 1 ∧ recall_at_k [[1, 0]] [[1, 0]] 1 = 1 :=
  scores_perfect_precision_recall [[1, 0]] [[1, 0]] 1 (by decide) (by decide)
    (by decide)

/-- Claim C9: for every list of (score, truth) pairs whose truth components
are all nonnegative, dcg_at_k vals 0 = 0, and dcg_at_k is monotone
nondecreasing in k as long as index k exists (in Python, vals[k] would raise
IndexError otherwise). -/
theorem dcg_zero_and_mono (vals : List (ℚ × ℚ)) (k : ℕ)
    (Hnn : ∀ p ∈ vals, 0 ≤ p.2) (Hk : k + 1 ≤ vals.length) :
    dcg_at_k vals 0 = 0 ∧ dcg_at_k vals k ≤ dcg_at_k vals (k + 1) := by
  constructor
  · unfold dcg_at_k
    simp
  · unfold dcg_at_k
    rw [Finset.sum_range_succ]
    have hk' : k < vals.length := Hk
    have hterm : 0 ≤ ((vals.getD k (0, 0)).2 : ℝ) / Real.logb 2 ((k : ℝ) + 2) := by
      refine div_nonneg ?_ (logb_two_pos k).le
      rw [getD_of_lt _ _ hk']
      exact_mod_cast Hnn _ (List.getElem_mem hk')
    linarith

/-- Witness for claim C9's theorem at a concrete input. -/
theorem dcg_zero_and_mono_witness :
    dcg_at_k [((2 : ℚ), (1 : ℚ)), ((1 : ℚ), (0 : ℚ))] 0 = 0 ∧
      dcg_at_k [((2 : ℚ), (1 : ℚ)), ((1 : ℚ), (0 : ℚ))] 1 ≤
        dcg_at_k [((2 : ℚ), (1 : ℚ)), ((1 : ℚ), (0 : ℚ))] 2 :=
  dcg_zero_and_mono [((2 : ℚ), (1 : ℚ)), ((1 : ℚ), (0 : ℚ))] 1 (by decide)
    (by decide)

/-- Claim C5: dcg_at_k vals k sums vals[i][1] / log2(i + 2) over i < k (stated
with genuine indexing under the hypothesis that vals has at least k entries),
and scores_at_k computes the reported NDCG at k as the average over samples of
the DCG of the prediction-score-sorted pairs divided by the DCG of the
ground-truth-sorted pairs plus the constant 0.00000001. -/
theorem dcg_scores_formulas (vals : List (ℚ × ℚ)) (k : ℕ) (h : k ≤ vals.length)
    (tv pv : List (List ℚ)) :
    dcg_at_k vals k =
      (∑ i : Fin k, ((vals.get ⟨i.1, Nat.lt_of_lt_of_le i.isLt h⟩).2 : ℝ) /
        Real.logb 2 ((i.1 : ℝ) + 2)) ∧
    ndcg_at_k tv pv k =
      (∑ j ∈ Finset.range tv.length,
        dcg_at_k (sortedByPred (sampleZ tv pv j)) k /
          (dcg_at_k (sortedByTrue (sampleZ tv pv j)) k + (eps : ℝ))) /
        (tv.length : ℝ) := by
  constructor
  · unfold dcg_at_k
    rw [← Fin.sum_univ_eq_sum_range]
    refine Finset.sum_congr rfl fun i _ => ?_
    congr 2
    rw [getD_of_lt _ _ (Nat.lt_of_lt_of_le i.isLt h)]
    rfl
  · rfl

/-- Witness for claim C5's theorem at a concrete input. -/
theorem dcg_scores_formulas_witness :
    dcg_at_k [((1 : ℚ), (1 : ℚ))] 1 =
      (∑ i : Fin 1, ((([((1 : ℚ), (1 : ℚ))]).get
          ⟨i.1, Nat.lt_of_lt_of_le i.isLt (le_refl 1)⟩).2 : ℝ) /
        Real.logb 2 ((i.1 : ℝ) + 2)) ∧
    ndcg_at_k [[1]] [[1]] 1 =
      (∑ j ∈ Finset.range ([[(1 : ℚ)]] : List (List ℚ)).length,
        dcg_at_k (sortedByPred (sampleZ [[1]] [[1]] j)) 1 /
          (dcg_at_k (sortedByTrue (sampleZ [[1]] [[1]] j)) 1 + (eps : ℝ))) /
        ((([[(1 : ℚ)]] : List (List ℚ)).length : ℕ) : ℝ) :=
  dcg_scores_formulas [((1 : ℚ), (1 : ℚ))] 1 (le_refl 1) [[1]] [[1]]

/-! ### Invariance of the scores under order-preserving rescaling -/

theorem strictMono_le_iff (f : ℚ → ℚ) (hf : ∀ a b : ℚ, a < b → f a < f b)
    (a b : ℚ) : a ≤ b ↔ f a ≤ f b := by
  constructor
  · intro h
    rcases eq_or_lt_of_le h with rfl | h
    · exact le_refl _
    · exact (hf a b h).le
  · intro h
    by_contra hab
    push_neg at hab
    exact absurd h (not_le.mpr (hf b a hab))

theorem sampleZ_map (tv pv : List (List ℚ)) (j : ℕ) (f : ℚ → ℚ) :
    sampleZ tv (pv.map (List.map f)) j =
      (sampleZ tv pv j).map (Prod.map f id) := by
  unfold sampleZ
  have h : (pv.map (List.map f)).getD j [] = (pv.getD j []).map f := by
    by_cases hj : j < pv.length
    · rw [getD_of_lt _ _ (by simpa using hj), getD_of_lt _ _ hj, List.getElem_map]
    · push_neg at hj
      rw [getD_of_ge _ _ (by simpa using hj), getD_of_ge _ _ hj]
      rfl
  rw [h, List.zip_map_left]

theorem sortedByPred_map_snd_invariant (z : List (ℚ × ℚ)) (f : ℚ → ℚ)
    (hf : ∀ a b : ℚ, a < b → f a < f b) :
    (sortedByPred (z.map (Prod.map f id))).map Prod.snd =
      (sortedByPred z).map Prod.snd := by
  have hmap : (sortedByPred z).map (Prod.map f id) =
      sortedByPred (z.map (Prod.map f id)) := by
    unfold sortedByPred
    exact List.map_insertionSort predGE predGE (Prod.map f id) z
      (fun a _ b _ => strictMono_le_iff f hf b.1 a.1)
  rw [← hmap, List.map_map]
  rfl

theorem sortedByTrue_map_snd_invariant (z : List (ℚ × ℚ)) (f : ℚ → ℚ) :
    (sortedByTrue (z.map (Prod.map f id))).map Prod.snd =
      (sortedByTrue z).map Prod.snd := by
  have hmap : (sortedByTrue z).map (Prod.map f id) =
      sortedByTrue (z.map (Prod.map f id)) := by
    unfold sortedByTrue
    exact List.map_insertionSort trueGE trueGE (Prod.map f id) z
      (fun a _ b _ => Iff.rfl)
  rw [← hmap, List.map_map]
  rfl

theorem truesum_map_invariant (z : List (ℚ × ℚ)) (k : ℕ) (f : ℚ → ℚ)
    (hf : ∀ a b : ℚ, a < b → f a < f b) :
    truesum (z.map (Prod.map f id)) k = truesum z k := by
  rw [truesum_eq_sum_getD, truesum_eq_sum_getD,
    sortedByPred_map_snd_invariant z f hf]

/-- Claim C4: for every list of samples, every k, and every strictly
order-preserving transformation f applied uniformly to all prediction scores
(f a < f b whenever a < b; preservation of equalities holds for any function),
scores_at_k computes the same precision, recall, F1 and NDCG at k on the
rescaled predictions as on the original ones. -/
theorem scores_rescale_invariant (tv pv : List (List ℚ)) (k : ℕ) (f : ℚ → ℚ)
    (hf : ∀ a b : ℚ, a < b → f a < f b) :
    precision_at_k tv (pv.map (List.map f)) k = precision_at_k tv pv k ∧
    recall_at_k tv (pv.map (List.map f)) k = recall_at_k tv pv k ∧
    f1score_at_k tv (pv.map (List.map f)) k = f1score_at_k tv pv k ∧
    ndcg_at_k tv (pv.map (List.map f)) k = ndcg_at_k tv pv k := by
  have hts : ∀ j, truesum (sampleZ tv (pv.map (List.map f)) j) k =
      truesum (sampleZ tv pv j) k := by
    intro j
    rw [sampleZ_map tv pv j f, truesum_map_invariant _ k f hf]
  have hdp : ∀ j, dcg_at_k (sortedByPred (sampleZ tv (pv.map (List.map f)) j)) k =
      dcg_at_k (sortedByPred (sampleZ tv pv j)) k := by
    intro j
    rw [sampleZ_map tv pv j f, dcg_eq_dcgT, dcg_eq_dcgT,
      sortedByPred_map_snd_invariant _ f hf]
  have hdt : ∀ j, dcg_at_k (sortedByTrue (sampleZ tv (pv.map (List.map f)) j)) k =
      dcg_at_k (sortedByTrue (sampleZ tv pv j)) k := by
    intro j
    rw [sampleZ_map tv pv j f, dcg_eq_dcgT, dcg_eq_dcgT,
      sortedByTrue_map_snd_invariant _ f]
  refine ⟨?_, ?_, ?_, ?_⟩
  · unfold precision_at_k sample_pr
    rw [Finset.sum_congr rfl (fun j _ => by rw [hts j])]
  · unfold recall_at_k sample_rc
    rw [Finset.sum_congr rfl (fun j _ => by rw [hts j])]
  · unfold f1score_at_k sample_f1 sample_pr sample_rc
    rw [Finset.sum_congr rfl (fun j _ => by rw [hts j])]
  · unfold ndcg_at_k sample_ndcg
    rw [Finset.sum_congr rfl (fun j _ => by rw [hdp j, hdt j])]

/-- Witness for claim C4's theorem at a concrete input. -/
theorem scores_rescale_invariant_witness :
    precision_at_k [[1]] ([[(1 : ℚ)]].map (List.map (fun x : ℚ => x + 1))) 1 =
        precision_at_k [[1]] [[1]] 1 ∧
    recall_at_k [[1]] ([[(1 : ℚ)]].map (List.map (fun x : ℚ => x + 1))) 1 =
        recall_at_k [[1]] [[1]] 1 ∧
    f1score_at_k [[1]] ([[(1 : ℚ)]].map (List.map (fun x : ℚ => x + 1))) 1 =
        f1score_at_k [[1]] [[1]] 1 ∧
    ndcg_at_k [[1]] ([[(1 : ℚ)]].map (List.map (fun x : ℚ => x + 1))) 1 =
        ndcg_at_k [[1]] [[1]] 1 :=
  scores_rescale_invariant [[1]] [[1]] 1 (fun x : ℚ => x + 1)
    (fun a b h => by simpa using h)

/-! ### Denominators of scores_at_k -/

theorem dcg_nonneg (vals : List (ℚ × ℚ)) (k : ℕ) (Hnn : ∀ p ∈ vals, 0 ≤ p.2) :
    0 ≤ dcg_at_k vals k := by
  unfold dcg_at_k
  refine Finset.sum_nonneg fun i _ => ?_
  refine div_nonneg ?_ (logb_two_pos i).le
  by_cases h : i < vals.length
  · rw [getD_of_lt _ _ h]
    exact_mod_cast Hnn _ (List.getElem_mem h)
  · push_neg at h
    rw [getD_of_ge _ _ h]
    norm_num

theorem scores_denominators_example_eval :
    scores_denominators [[0]] [[1]] 1 = [1, 0, 1] := by
  norm_num [scores_denominators, truesum, sampleZ, sortedByPred,
    List.insertionSort, List.orderedInsert, predGE, List.range_succ,
    Finset.sum_range_one]

/-- Claim C3, counterexample to the claim as stated: when the first sample's
ground-truth vector has no positive label (here truevals = [[0]],
predvals = [[1]], k = 1), the recall division truesum / np.sum(truevals[0])
has denominator zero, so not every division performed by scores_at_k has a
nonzero denominator. -/
theorem scores_div_by_zero_example :
    ¬ (∀ d ∈ scores_denominators [[0]] [[1]] 1, d ≠ 0) := by
  intro h
  exact h 0 (by rw [scores_denominators_example_eval]; norm_num) rfl

/-- Claim C3 (amended): for every input to scores_at_k with k at least 1, a
non-empty list of samples, nonnegative ground-truth values, and a first
sample whose ground-truth values have positive sum, every rational division
performed (per-sample precision truesum/k, recall truesum/np.sum(truevals[0]),
the guarded F1 term, and the final divisions by len(truevals)) has a nonzero
denominator, and every per-sample NDCG denominator (the ideal DCG plus the
constant epsilon 0.00000001) is strictly positive — the epsilon being the only
guard needed there. -/
theorem scores_denominators_nonzero (tv pv : List (List ℚ)) (k : ℕ)
    (Hk : 0 < k) (Hne : tv ≠ [])
    (Hnn : ∀ l ∈ tv, ∀ x ∈ l, 0 ≤ x)
    (H0 : 0 < (tv.getD 0 []).sum) :
    (∀ d ∈ scores_denominators tv pv k, d ≠ 0) ∧
      ∀ d ∈ ndcg_denominators tv pv k, 0 < d := by
  constructor
  · intro d hd
    unfold scores_denominators at hd
    rcases List.mem_append.mp hd with hd | hd
    · rcases List.mem_flatten.mp hd with ⟨L, hL, hdL⟩
      rcases List.mem_map.mp hL with ⟨j, hj, rfl⟩
      rcases List.mem_append.mp hdL with hd2 | hd2
      · rcases List.mem_cons.mp hd2 with rfl | hd3
        · exact_mod_cast Hk.ne'
        · rcases List.mem_cons.mp hd3 with rfl | hd4
          · exact H0.ne'
          · exact absurd hd4 (List.not_mem_nil _)
      · by_cases hts : 0 < truesum (sampleZ tv pv j) k
        · rw [if_pos hts] at hd2
          rcases List.mem_cons.mp hd2 with rfl | hd4
          · have hpr : 0 < sample_pr (sampleZ tv pv j) k := by
              unfold sample_pr
              exact div_pos hts (by exact_mod_cast Hk)
            have hrc : 0 < sample_rc tv (sampleZ tv pv j) k := by
              unfold sample_rc
              exact div_pos hts H0
            exact (add_pos hpr hrc).ne'
          · exact absurd hd4 (List.not_mem_nil _)
        · rw [if_neg hts] at hd2
          exact absurd hd2 (List.not_mem_nil _)
    · rcases List.mem_cons.mp hd with rfl | hd2
      · have hlen : 0 < tv.length := List.length_pos.mpr Hne
        exact_mod_cast hlen.ne'
      · exact absurd hd2 (List.not_mem_nil _)
  · intro d hd
    unfold ndcg_denominators at hd
    rcases List.mem_map.mp hd with ⟨j, hj, rfl⟩
    have hjlen : j < tv.length := List.mem_range.mp hj
    have hnn : ∀ p ∈ sortedByTrue (sampleZ tv pv j), 0 ≤ p.2 := by
      intro p hp
      have hz : p ∈ sampleZ tv pv j := (sortedByTrue_perm _).subset hp
      have hmem := (List.mem_zip hz).2
      refine Hnn (tv.getD j []) ?_ _ hmem
      rw [getD_of_lt _ _ hjlen]
      exact List.getElem_mem hjlen
    have hdcg := dcg_nonneg _ k hnn
    have heps := eps_real_pos
    linarith

/-- Witness for claim C3's amended theorem at a concrete input. -/
theorem scores_denominators_nonzero_witness :
    (∀ d ∈ scores_denominators [[1]] [[1]] 1, d ≠ 0) ∧
      ∀ d ∈ ndcg_denominators [[1]] [[1]] 1, 0 < d :=
  scores_denominators_nonzero [[1]] [[1]] 1 (by decide) (by decide) (by decide)
    (by norm_num)

/-- Claim C6: the reported metrics are per-sample values averaged across
samples, with recall@k claimed to divide each sample's truesum by that
sample's own positive-label total; but the code divides every sample's
truesum by np.sum(truevals[0]), the positive total of sample 0.  At
truevals = [[1,0],[1,1]], predvals = [[1,0],[1,1/2]], k = 1 the code reports
recall 1, whereas the claimed average of per-sample recalls is
(1/1 + 1/2)/2 = 3/4. -/
theorem recall_divides_by_first_sample :
    recall_at_k [[1, 0], [1, 1]] [[1, 0], [1, 1 / 2]] 1 = 1 ∧
      ((1 : ℚ) / 1 + 1 / 2) / 2 = 3 / 4 := by
  constructor
  · norm_num [recall_at_k, sample_rc, truesum, sampleZ, sortedByPred,
      List.insertionSort, List.orderedInsert, predGE, List.range_succ,
      Finset.sum_range_one, Finset.sum_range_succ]
  · norm_num

/-- Claim C7, counterexample: the tensorboardX import cell does not let an
ImportError propagate to the caller; it catches the exception and completes
normally with the fallback binding log = None. -/
theorem tensorboard_cell_handles_error :
    tensorboard_log_cell Unit (Except.error PyErr.importError) =
        Except.ok none ∧
      tensorboard_log_cell Unit (Except.error PyErr.importError) ≠
        Except.error PyErr.importError := by
  constructor
  · rfl
  · intro h
    exact Except.noConfusion h

/-- Claim C7 (amended): the notebooks implement exactly one piece of error
handling of their own — the tensorboardX import cell, which catches an
ImportError and substitutes the fallback result log = None instead of
propagating it; when the import succeeds the cell returns the writer. -/
theorem tensorboard_cell_behaviour (α : Type) (e : PyErr) (w : α) :
    tensorboard_log_cell α (Except.error e) = Except.ok none ∧
      tensorboard_log_cell α (Except.ok w) = Except.ok (some w) :=
  ⟨rfl, rfl⟩

/-! ### indices_to_labels -/

theorem indices_foldl_length (x : List ℕ) (l : List ℚ) :
    (x.foldl (fun labels i => if i < NLABELS then labels.set i 1 else labels)
      l).length = l.length := by
  induction x generalizing l with
  | nil => rfl
  | cons a x ih =>
    rw [List.foldl_cons, ih]
    by_cases h : a < NLABELS <;> simp [h]

theorem indices_foldl_getD (x : List ℕ) (l : List ℚ) (i : ℕ) (hi : i < l.length) :
    (x.foldl (fun labels i => if i < NLABELS then labels.set i 1 else labels)
        l).getD i 0 =
      if i ∈ x ∧ i < NLABELS then 1 else l.getD i 0 := by
  induction x generalizing l with
  | nil => simp
  | cons a x ih =>
    rw [List.foldl_cons]
    have hlen : i < (if a < NLABELS then l.set a 1 else l).length := by
      by_cases h : a < NLABELS <;> simp [h, hi]
    rw [ih _ hlen]
    by_cases hx : i ∈ x ∧ i < NLABELS
    · rw [if_pos hx, if_pos ⟨List.mem_cons_of_mem a hx.1, hx.2⟩]
    · rw [if_neg hx]
      by_cases hia : i = a
      · subst hia
        by_cases hlt : i < NLABELS
        · have hc : i ∈ i :: x ∧ i < NLABELS := ⟨List.mem_cons_self i x, hlt⟩
          rw [if_pos hlt, if_pos hc]
          rw [getD_of_lt _ _ (by simpa using hi)]
          simp
        · have hc : ¬ (i ∈ i :: x ∧ i < NLABELS) := fun hcon => hlt hcon.2
          rw [if_neg hlt, if_neg hc]
      · have hcond : ¬ (i ∈ a :: x ∧ i < NLABELS) := by
          intro hcon
          rcases List.mem_cons.mp hcon.1 with h1 | h1
          · exact hia h1
          · exact hx ⟨h1, hcon.2⟩
        rw [if_neg hcond]
        by_cases hlt : a < NLABELS
        · rw [if_pos hlt]
          rw [getD_of_lt _ _ (by simpa using hi), getD_of_lt _ _ hi]
          exact List.getElem_set_ne (Ne.symm hia) _
        · rw [if_neg hlt]

theorem indices_foldl_binary (x : List ℕ) (l : List ℚ)
    (Hl : ∀ v ∈ l, v = 0 ∨ v = 1) :
    ∀ v ∈ x.foldl (fun labels i => if i < NLABELS then labels.set i 1 else labels) l,
      v = 0 ∨ v = 1 := by
  induction x generalizing l with
  | nil => exact Hl
  | cons a x ih =>
    rw [List.foldl_cons]
    refine ih _ ?_
    intro v hv
    by_cases h : a < NLABELS
    · rw [if_pos h] at hv
      rcases List.mem_or_eq_of_mem_set hv with h1 | h1
      · exact Hl v h1
      · exact Or.inr h1
    · rw [if_neg h] at hv
      exact Hl v hv

/-- Claim C8: indices_to_labels returns a vector of exactly NLABELS (100)
entries, each 0 or 1, whose entry i (for i < NLABELS) is 1 exactly when i
occurs in the input list; input indices at least NLABELS are silently
ignored and never cause an out-of-bounds write or an error (the result
always has length NLABELS). -/
theorem indices_to_labels_spec (x : List ℕ) (i : ℕ) (hi : i < NLABELS) :
    (indices_to_labels x).length = NLABELS ∧
      (∀ v ∈ indices_to_labels x, v = 0 ∨ v = 1) ∧
      (indices_to_labels x).getD i 0 = if i ∈ x then 1 else 0 := by
  unfold indices_to_labels
  refine ⟨?_, ?_, ?_⟩
  · rw [indices_foldl_length, List.length_replicate]
  · exact indices_foldl_binary x _
      (fun v hv => Or.inl (List.eq_of_mem_replicate hv))
  · rw [indices_foldl_getD x _ i (by simpa using hi)]
    by_cases hx : i ∈ x
    · rw [if_pos ⟨hx, hi⟩, if_pos hx]
    · rw [if_neg (fun hc => hx hc.1), if_neg hx]
      rw [getD_of_lt _ _ (by simpa using hi), List.getElem_replicate]

/-- Witness for claim C8's theorem at a concrete input. -/
theorem indices_to_labels_spec_witness :
    (indices_to_labels [5, 200]).length = NLABELS ∧
      (∀ v ∈ indices_to_labels [5, 200], v = 0 ∨ v = 1) ∧
      (indices_to_labels [5, 200]).getD 5 0 = if 5 ∈ [5, 200] then 1 else 0 :=
  indices_to_labels_spec [5, 200] 5 (by decide)

/-! ### Train/validation split -/

theorem num_validation_samples_eq (n : ℕ) : num_validation_samples n = n / 5 := by
  unfold num_validation_samples VALIDATION_SPLIT
  have h5 : ((1 : ℚ) / 5) * (n : ℚ) = (n : ℚ) / 5 := by ring
  rw [h5]
  have hfloor : Int.floor ((n : ℚ) / 5) = ((n / 5 : ℕ) : ℤ) := by
    rw [Int.floor_eq_iff]
    constructor
    · push_cast
      rw [le_div_iff (by norm_num)]
      have h := Nat.div_mul_le_self n 5
      exact_mod_cast h
    · push_cast
      rw [div_lt_iff (by norm_num)]
      have h : n < (n / 5 + 1) * 5 := by omega
      exact_mod_cast h
  rw [hfloor, Int.toNat_natCast]

/-- Claim C10: with VALIDATION_SPLIT = 0.2, for every dataset of n rows with
n at least 5, x_train = data[:-num_validation_samples] and
x_val = data[-num_validation_samples:] split the rows into a training part
of n - floor(0.2*n) rows and a validation part of floor(0.2*n) rows whose
concatenation is the data; for n < 5, num_validation_samples is 0 and the
same slicing yields an empty training set (data[:-0] is data[:0]) and a
validation set equal to the entire dataset (data[-0:] is data[0:]). -/
theorem train_val_split {α : Type} (data : List α) :
    (5 ≤ data.length →
      (x_train data).length = data.length - num_validation_samples data.length ∧
      (x_val data).length = num_validation_samples data.length ∧
      x_train data ++ x_val data = data) ∧
    (data.length < 5 →
      num_validation_samples data.length = 0 ∧
      x_train data = [] ∧ x_val data = data) := by
  have hm := num_validation_samples_eq data.length
  constructor
  · intro h5
    have hneg : ¬ (0 ≤ -((num_validation_samples data.length : ℤ))) := by
      rw [hm]; omega
    have htake : x_train data = data.take (data.length - data.length / 5) := by
      unfold x_train pySliceTo
      rw [if_neg hneg, hm]
      congr 1
      omega
    have hdrop : x_val data = data.drop (data.length - data.length / 5) := by
      unfold x_val pySliceFrom
      rw [if_neg hneg, hm]
      congr 1
      omega
    refine ⟨?_, ?_, ?_⟩
    · rw [htake, hm, List.length_take]
      omega
    · rw [hdrop, hm, List.length_drop]
      omega
    · rw [htake, hdrop]
      exact List.take_append_drop _ data
  · intro h5
    have hm0 : num_validation_samples data.length = 0 := by omega
    refine ⟨hm0, ?_, ?_⟩
    · unfold x_train pySliceTo
      rw [hm0]
      norm_num
    · unfold x_val pySliceFrom
      rw [hm0]
      norm_num

/-- Witness for claim C10's theorem at concrete inputs, one with at least 5
rows and one with fewer. -/
theorem train_val_split_witness :
    ((x_train ([0, 1, 2, 3, 4] : List ℕ)).length =
        ([0, 1, 2, 3, 4] : List ℕ).length -
          num_validation_samples ([0, 1, 2, 3, 4] : List ℕ).length ∧
      (x_val ([0, 1, 2, 3, 4] : List ℕ)).length =
        num_validation_samples ([0, 1, 2, 3, 4] : List ℕ).length ∧
      x_train ([0, 1, 2, 3, 4] : List ℕ) ++ x_val ([0, 1, 2, 3, 4] : List ℕ) =
        [0, 1, 2, 3, 4]) ∧
    (num_validation_samples ([0, 1] : List ℕ).length = 0 ∧
      x_train ([0, 1] : List ℕ) = [] ∧ x_val ([0, 1] : List ℕ) = [0, 1]) :=
  ⟨(train_val_split [0, 1, 2, 3, 4]).1 (by decide),
    (train_val_split [0, 1]).2 (by decide)⟩
